import Mathlib

/-!
Shallow embedding of the XORWOW engine from
`src/library/include/rocrand_xorwow.h` (rocRAND), together with proofs of the
spec's testable properties.  Machine words (`unsigned int`) are modelled as
`Nat` with explicit `% 2 ^ 32` where C arithmetic wraps; 64-bit skip distances
are plain `Nat` arguments.  The precomputed jump tables live in
`rocrand_xorwow_precomputed.h`, which is not part of the sources here; they are
modelled from the spec as powers of the single-step transition matrix.
-/

set_option maxHeartbeats 1000000

namespace rocrand

/-- `2 ^ 32`: modulus of `unsigned int` arithmetic. -/
def W : Nat := 2 ^ 32

/-- The xorshift state: `XORWOW_N = 5` words (`unsigned int x[5]`). -/
abbrev Vec := Fin 5 → Nat

/-- A GF(2) transition matrix in the source's layout: `m i j` is the row of
`XORWOW_N` words stored at `m[i * XORWOW_M * XORWOW_N + j * XORWOW_N]`, i.e.
the image of the basis vector that has only bit `j` of word `i` set.
Bit indices `j` range over `0 ≤ j < XORWOW_M = 32`. -/
abbrev Mat := Fin 5 → Nat → Vec

/-- The all-zero vector (`unsigned int r[XORWOW_N] = { 0 }`). -/
def vec0 : Vec := fun _ => 0

/-- Componentwise XOR of two vectors. -/
def vecXor (u v : Vec) : Vec := fun i => u i ^^^ v i

/-- XOR of a list of vectors (accumulation into `r` in the source). -/
def bigXor (l : List Vec) : Vec := l.foldr vecXor vec0

/-- `detail::mul_mat_vec_inplace`: for every word `i` and bit `j` with
`v[i] & (1 << j)` set, XOR row `(i, j)` of the matrix into the result. -/
def mul_mat_vec (m : Mat) (v : Vec) : Vec :=
  bigXor ((List.finRange 5).map fun i =>
    bigXor ((List.range 32).map fun j =>
      if (v i).testBit j then m i j else vec0))

/-- `detail::mul_mat_mat_inplace`: each row of `a` (the image of one input
basis bit) is replaced by `b` applied to it, producing the matrix of
`b ∘ a`. -/
def mul_mat_mat (a b : Mat) : Mat := fun i j => mul_mat_vec b (a i j)

/-- The x-component of `xorwow_engine::next` (lines 203-208): one step of the
xorshift recurrence on the five 32-bit words. -/
def xorwow_next_x (x : Vec) : Vec :=
  let t := x 0 ^^^ (x 0 >>> 2)
  ![x 1, x 2, x 3, x 4,
    (x 4 ^^^ ((x 4 <<< 4) % W)) ^^^ (t ^^^ ((t <<< 1) % W))]

/-- The basis vector with only bit `j` of word `i` set. -/
def basis (i : Fin 5) (j : Nat) : Vec := fun i2 => if i2 = i then 1 <<< j else 0

/-- The matrix of a linear map `f`, in the source's layout. -/
def matOf (f : Vec → Vec) : Mat := fun i j => f (basis i j)

/-- Modelled from the spec: `XORWOW_JUMP_MATRICES`, the number of precomputed
matrices per table, defined in `rocrand_xorwow_precomputed.h` (not in src). -/
def XORWOW_JUMP_MATRICES : Nat := 32

/-- Modelled from the spec: `XORWOW_JUMP_LOG2`, the table granularity exponent
from `rocrand_xorwow_precomputed.h` (not in src); the source comments on
`xorwow_engine::jump` state `XORWOW_JUMP_LOG2 = 2`. -/
def XORWOW_JUMP_LOG2 : Nat := 2

/-- Modelled from the spec: `h_xorwow_jump_matrices` (not in src), the step
jump table.  Per the source comment, entry `mi` is the precomputed matrix
`A^(4^mi)` where `A` is the single-step transition on `x`. -/
def h_xorwow_jump_matrices : Nat → Mat :=
  fun mi => matOf (xorwow_next_x^[4 ^ mi])

/-- Modelled from the spec: `h_xorwow_sequence_jump_matrices` (not in src),
the subsequence jump table.  Per the source comment, entry `mi` is
`A^(4^mi * 2^67)`: a subsequence is `2^67` numbers long. -/
def h_xorwow_sequence_jump_matrices : Nat → Mat :=
  fun mi => matOf (xorwow_next_x^[2 ^ 67 * 4 ^ mi])

/-- The inner `for (int i = 0; i < digit; i++) mul_mat_vec_inplace(...)` loop:
apply a matrix to the state vector `n` times. -/
def applyN (m : Mat) : Nat → Vec → Vec
  | 0, x => x
  | n + 1, x => applyN m n (mul_mat_vec m x)

/-- The `while (v > 0 && mi < XORWOW_JUMP_MATRICES)` loop of
`xorwow_engine::jump` (lines 236-246), with the remaining table positions as
an explicit list.  At each position the digit width is `XORWOW_JUMP_LOG2`,
except at the last table position where it is `1`; the corresponding matrix is
applied digit-many times and `v` is shifted right by the width.  Returns the
residual `v` and the updated state vector. -/
def jump_loop (table : Nat → Mat) : List Nat → Nat → Vec → Nat × Vec
  | [], v, x => (v, x)
  | mi :: rest, v, x =>
    if v = 0 then (v, x)
    else
      let l := if mi < XORWOW_JUMP_MATRICES - 1 then XORWOW_JUMP_LOG2 else 1
      jump_loop table rest (v >>> l) (applyN (table mi) (v % 2 ^ l) x)

/-- The exponentiation-by-squaring fallback of `xorwow_engine::jump`
(lines 265-284, the NVCC/host branch): a do-while loop squaring the running
matrix and applying it to `x` whenever the current bit of `v` is set. -/
def mat_squaring_loop (a : Mat) (v : Nat) (x : Vec) : Vec :=
  let a2 := mul_mat_mat a a
  let x2 := if v % 2 = 1 then mul_mat_vec a2 x else x
  if h : 0 < v / 2 then mat_squaring_loop a2 (v / 2) x2 else x2
termination_by v
decreasing_by omega

/-- The linear fallback of `xorwow_engine::jump` (lines 259-262, the HCC
device branch): `for (v = v << 1; v > 0; v--)` apply the last table matrix. -/
def jump_linear_fallback (m : Mat) (v : Nat) (x : Vec) : Vec :=
  applyN m (v <<< 1) x

/-- `xorwow_engine::jump` (lines 218-288): the table-driven digit loop
followed, if `v` still has unconsumed bits, by the squaring fallback seeded
with the last table matrix. -/
def jump (v : Nat) (jump_matrices : Nat → Mat) (x : Vec) : Vec :=
  let r := jump_loop jump_matrices (List.range XORWOW_JUMP_MATRICES) v x
  if 0 < r.1 then
    mat_squaring_loop (jump_matrices (XORWOW_JUMP_MATRICES - 1)) r.1 r.2
  else r.2

/-- `xorwow_engine::xorwow_state` (lines 96-118).  The C++ members
`boxmuller_float` / `boxmuller_double` have types `float` / `double`; they are
never read or computed with by this module, so their bit patterns are carried
as plain `Nat` values here. -/
@[ext]
structure xorwow_state where
  x : Vec
  d : Nat
  boxmuller_float_state : Nat
  boxmuller_double_state : Nat
  boxmuller_float : Nat
  boxmuller_double : Nat

/-- `xorwow_engine::next` (lines 200-213): one advance step, returning the
updated state and the produced output word. -/
def xorwow_next (s : xorwow_state) : xorwow_state × Nat :=
  let t := s.x 0 ^^^ (s.x 0 >>> 2)
  let x4 := (s.x 4 ^^^ ((s.x 4 <<< 4) % W)) ^^^ (t ^^^ ((t <<< 1) % W))
  let d2 := (s.d + 362437) % W
  ({ s with x := ![s.x 1, s.x 2, s.x 3, s.x 4, x4], d := d2 }, (d2 + x4) % W)

/-- The state part of one `next` call. -/
def xorwow_step (s : xorwow_state) : xorwow_state := (xorwow_next s).1

/-- `xorwow_engine::discard` (lines 167-177): jump `offset` steps using the
step table, then apply `offset` steps to the Weyl value in one multiplication,
with `offset` first truncated to `unsigned int`. -/
def discard (offset : Nat) (s : xorwow_state) : xorwow_state :=
  { s with
    x := jump offset h_xorwow_jump_matrices s.x,
    d := (s.d + (offset % W) * 362437 % W) % W }

/-- `xorwow_engine::discard_subsequence` (lines 182-192): jump
`subsequence * 2^67` steps using the subsequence table; `d` is untouched. -/
def discard_subsequence (subsequence : Nat) (s : xorwow_state) : xorwow_state :=
  { s with x := jump subsequence h_xorwow_sequence_jump_matrices s.x }

/-- The state after the constructor's fixed-constant initialization and seed
mixing (lines 133-151), before the subsequence and offset jumps.  The C++
members `boxmuller_float` and `boxmuller_double` are left uninitialized by
the constructor; the model carries them as `0`. -/
def xorwow_mixed_state (seed : Nat) : xorwow_state :=
  let s0 := (seed % W) ^^^ 0xaad26b49
  let s1 := ((seed >>> 32) % W) ^^^ 0xf7dcefdd
  let t0 := (1099087573 * s0) % W
  let t1 := (2591861531 * s1) % W
  { x := ![(123456789 + t0) % W, 362436069 ^^^ t0, (521288629 + t1) % W,
           88675123 ^^^ t1, (5783321 + t0) % W],
    d := (6615241 + t1 + t0) % W,
    boxmuller_float_state := 0, boxmuller_double_state := 0,
    boxmuller_float := 0, boxmuller_double := 0 }

/-- The constructor `xorwow_engine(seed, subsequence, offset)`
(lines 128-160): fixed constants and seed mixing, then
`discard_subsequence(subsequence)`, `discard(offset)`, and finally clearing
the Box-Muller flags. -/
def xorwow_engine_init (seed subsequence offset : Nat) : xorwow_state :=
  let st2 := discard offset
    (discard_subsequence subsequence (xorwow_mixed_state seed))
  { st2 with boxmuller_float_state := 0, boxmuller_double_state := 0 }

/-- Every word of the state vector fits in 32 bits. -/
def ValidVec (x : Vec) : Prop := ∀ i, x i < W

instance (x : Vec) : Decidable (ValidVec x) :=
  inferInstanceAs (Decidable (∀ i, x i < W))

/-- GF(2)-linearity of a map on state vectors. -/
def IsLin (f : Vec → Vec) : Prop :=
  f vec0 = vec0 ∧ ∀ u v, f (vecXor u v) = vecXor (f u) (f v)

/-- A matrix realizes `p` steps of the xorshift recurrence on valid vectors. -/
def Represents (m : Mat) (p : Nat) : Prop :=
  ∀ x, ValidVec x → mul_mat_vec m x = xorwow_next_x^[p] x

/-! ### XOR algebra on words and vectors -/

theorem nat_xor_left_comm (a b c : Nat) : a ^^^ (b ^^^ c) = b ^^^ (a ^^^ c) := by
  rw [← Nat.xor_assoc, Nat.xor_comm a b, Nat.xor_assoc]

theorem nat_xor4 (a b c d : Nat) :
    (a ^^^ b) ^^^ (c ^^^ d) = (a ^^^ c) ^^^ (b ^^^ d) := by
  rw [Nat.xor_assoc, Nat.xor_assoc, nat_xor_left_comm b c d]

theorem shiftRight_xor (a b n : Nat) :
    (a ^^^ b) >>> n = (a >>> n) ^^^ (b >>> n) :=
  Nat.eq_of_testBit_eq fun i => by
    simp [Nat.testBit_shiftRight, Nat.testBit_xor]

theorem shiftLeft_xor (a b n : Nat) :
    (a ^^^ b) <<< n = (a <<< n) ^^^ (b <<< n) :=
  Nat.eq_of_testBit_eq fun i => by
    simp only [Nat.testBit_shiftLeft, Nat.testBit_xor]
    cases decide (i ≥ n) <;> simp

theorem mod_two_pow_xor (a b n : Nat) :
    (a ^^^ b) % 2 ^ n = (a % 2 ^ n) ^^^ (b % 2 ^ n) :=
  Nat.eq_of_testBit_eq fun i => by
    simp only [Nat.testBit_mod_two_pow, Nat.testBit_xor]
    cases decide (i < n) <;> simp

theorem mod_two_pow_succ_xor (w n : Nat) :
    w % 2 ^ (n + 1) = (w % 2 ^ n) ^^^ (if w.testBit n then 2 ^ n else 0) := by
  apply Nat.eq_of_testBit_eq
  intro i
  simp only [Nat.testBit_mod_two_pow, Nat.testBit_xor]
  by_cases hb : w.testBit n
  · simp only [hb, if_true]
    rw [Nat.testBit_two_pow]
    rcases Nat.lt_trichotomy i n with h | h | h
    · have h1 : i < n + 1 := by omega
      have h2 : n ≠ i := by omega
      simp [h, h1, h2]
    · subst h
      simp [hb]
    · have h1 : ¬ i < n + 1 := by omega
      have h2 : ¬ i < n := by omega
      have h3 : n ≠ i := by omega
      simp [h1, h2, h3]
  · have hb2 : w.testBit n = false := by simpa using hb
    simp only [hb2, Bool.false_eq_true, if_false, Nat.zero_testBit]
    by_cases hi : i = n
    · subst hi
      simp [hb2]
    · by_cases hlt : i < n
      · have h1 : i < n + 1 := by omega
        simp [hlt, h1]
      · have h1 : ¬ i < n + 1 := by omega
        simp [hlt, h1]

theorem vecXor_assoc (a b c : Vec) :
    vecXor (vecXor a b) c = vecXor a (vecXor b c) :=
  funext fun _ => Nat.xor_assoc _ _ _

theorem vecXor_comm (a b : Vec) : vecXor a b = vecXor b a :=
  funext fun _ => Nat.xor_comm _ _

theorem vecXor_vec0 (a : Vec) : vecXor a vec0 = a :=
  funext fun _ => Nat.xor_zero _

theorem vec0_vecXor (a : Vec) : vecXor vec0 a = a :=
  funext fun _ => Nat.zero_xor _

theorem vecXor_self (a : Vec) : vecXor a a = vec0 :=
  funext fun _ => Nat.xor_self _

theorem vecXor_xor4 (a b c d : Vec) :
    vecXor (vecXor a b) (vecXor c d) = vecXor (vecXor a c) (vecXor b d) :=
  funext fun _ => nat_xor4 _ _ _ _

theorem bigXor_nil : bigXor [] = vec0 := rfl

theorem bigXor_cons (a : Vec) (l : List Vec) :
    bigXor (a :: l) = vecXor a (bigXor l) := rfl

theorem bigXor_append (l1 l2 : List Vec) :
    bigXor (l1 ++ l2) = vecXor (bigXor l1) (bigXor l2) := by
  induction l1 with
  | nil => simp [bigXor_nil, vec0_vecXor]
  | cons a l ih => simp [bigXor_cons, ih, vecXor_assoc]

theorem bigXor_map_vecXor {α : Type} (l : List α) (f g : α → Vec) :
    bigXor (l.map fun a => vecXor (f a) (g a))
      = vecXor (bigXor (l.map f)) (bigXor (l.map g)) := by
  induction l with
  | nil => simp [bigXor_nil, vecXor_vec0]
  | cons a l ih => simp [List.map_cons, bigXor_cons, ih, vecXor_xor4]

theorem bigXor_map_vec0 {α : Type} (l : List α) :
    bigXor (l.map fun _ => (vec0 : Vec)) = vec0 := by
  induction l with
  | nil => rfl
  | cons a l ih => rw [List.map_cons, bigXor_cons, ih, vec0_vecXor]

theorem lin_bigXor {f : Vec → Vec} (hf : IsLin f) (l : List Vec) :
    f (bigXor l) = bigXor (l.map f) := by
  induction l with
  | nil => simpa [bigXor_nil] using hf.1
  | cons a l ih => simp [List.map_cons, bigXor_cons, hf.2, ih]

theorem bigXor_singleton (a : Vec) : bigXor [a] = a := by
  rw [bigXor_cons, bigXor_nil, vecXor_vec0]

/-! ### Linearity of the matrix-vector product -/

theorem vecXor_apply (u v : Vec) (i : Fin 5) : vecXor u v i = u i ^^^ v i := rfl

theorem vec0_apply (i : Fin 5) : vec0 i = 0 := rfl

theorem if_bool_xor (b1 b2 : Bool) (wv : Vec) :
    (if (b1 ^^ b2) then wv else vec0)
      = vecXor (if b1 then wv else vec0) (if b2 then wv else vec0) := by
  cases b1 <;> cases b2 <;>
    simp [vecXor_self, vecXor_vec0, vec0_vecXor]

theorem mul_mat_vec_vecXor (m : Mat) (u v : Vec) :
    mul_mat_vec m (vecXor u v)
      = vecXor (mul_mat_vec m u) (mul_mat_vec m v) := by
  simp only [mul_mat_vec, vecXor_apply, Nat.testBit_xor, if_bool_xor,
    bigXor_map_vecXor]

theorem mul_mat_vec_vec0 (m : Mat) : mul_mat_vec m vec0 = vec0 := by
  simp only [mul_mat_vec, vec0_apply, Nat.zero_testBit, Bool.false_eq_true,
    if_false, bigXor_map_vec0]

theorem isLin_mul_mat_vec (m : Mat) : IsLin (mul_mat_vec m) :=
  ⟨mul_mat_vec_vec0 m, mul_mat_vec_vecXor m⟩

theorem mul_mat_vec_bigXor (m : Mat) (l : List Vec) :
    mul_mat_vec m (bigXor l) = bigXor (l.map (mul_mat_vec m)) :=
  lin_bigXor (isLin_mul_mat_vec m) l

theorem lin_if {f : Vec → Vec} (h0 : f vec0 = vec0) (b : Bool) (wv : Vec) :
    f (if b then wv else vec0) = if b then f wv else vec0 := by
  cases b <;> simp [h0]

theorem mul_mat_vec_matMul (a b : Mat) (v : Vec) :
    mul_mat_vec (mul_mat_mat a b) v = mul_mat_vec b (mul_mat_vec a v) := by
  conv_rhs =>
    rw [show mul_mat_vec a v = bigXor ((List.finRange 5).map fun i =>
      bigXor ((List.range 32).map fun j =>
        if (v i).testBit j then a i j else vec0)) from rfl]
  rw [mul_mat_vec_bigXor, List.map_map]
  show bigXor ((List.finRange 5).map fun i =>
      bigXor ((List.range 32).map fun j =>
        if (v i).testBit j then mul_mat_vec b (a i j) else vec0)) = _
  refine congrArg bigXor (List.map_congr_left fun i _ => ?_)
  show bigXor ((List.range 32).map fun j =>
      if (v i).testBit j then mul_mat_vec b (a i j) else vec0)
    = mul_mat_vec b (bigXor ((List.range 32).map fun j =>
      if (v i).testBit j then a i j else vec0))
  rw [mul_mat_vec_bigXor, List.map_map]
  refine congrArg bigXor (List.map_congr_left fun j _ => ?_)
  exact (lin_if (mul_mat_vec_vec0 b) _ _).symm

/-! ### Matrices of linear maps -/

/-- The vector whose word `i` is `w` and whose other words are `0`. -/
def wVec (i : Fin 5) (w : Nat) : Vec := fun i2 => if i2 = i then w else 0

theorem wVec_zero (i : Fin 5) : wVec i 0 = vec0 := by
  funext i2
  simp [wVec, vec0]

theorem bit_decomp (i : Fin 5) (w : Nat) (n : Nat) :
    bigXor ((List.range n).map fun j => if w.testBit j then basis i j else vec0)
      = wVec i (w % 2 ^ n) := by
  induction n with
  | zero =>
    simp only [List.range_zero, List.map_nil, bigXor_nil, Nat.pow_zero,
      Nat.mod_one, wVec_zero]
  | succ n ih =>
    rw [List.range_succ, List.map_append, bigXor_append, ih, List.map_cons,
      List.map_nil, bigXor_singleton]
    funext i2
    by_cases h2 : i2 = i
    · show wVec i (w % 2 ^ n) i2 ^^^ (if w.testBit n then basis i n else vec0) i2
        = wVec i (w % 2 ^ (n + 1)) i2
      simp only [wVec, basis, if_pos h2, apply_ite (fun g : Vec => g i2),
        Nat.one_shiftLeft, vec0_apply]
      exact (mod_two_pow_succ_xor w n).symm
    · show wVec i (w % 2 ^ n) i2 ^^^ (if w.testBit n then basis i n else vec0) i2
        = wVec i (w % 2 ^ (n + 1)) i2
      simp only [wVec, basis, if_neg h2, apply_ite (fun g : Vec => g i2),
        vec0_apply, Nat.zero_xor]
      simp

theorem finRange_five : List.finRange 5 = [0, 1, 2, 3, 4] := by decide

theorem word_decomp (v : Vec) :
    bigXor ((List.finRange 5).map fun i => wVec i (v i)) = v := by
  rw [finRange_five]
  funext i2
  fin_cases i2 <;>
    simp [List.map_cons, List.map_nil, bigXor, vecXor, vec0, wVec,
      show ((0:Fin 5) = 3) = False from by decide,
      show ((0:Fin 5) = 4) = False from by decide,
      show ((1:Fin 5) = 3) = False from by decide,
      show ((1:Fin 5) = 4) = False from by decide,
      show ((2:Fin 5) = 3) = False from by decide,
      show ((2:Fin 5) = 4) = False from by decide,
      show ((3:Fin 5) = 0) = False from by decide,
      show ((3:Fin 5) = 1) = False from by decide,
      show ((3:Fin 5) = 2) = False from by decide,
      show ((3:Fin 5) = 4) = False from by decide,
      show ((4:Fin 5) = 0) = False from by decide,
      show ((4:Fin 5) = 1) = False from by decide,
      show ((4:Fin 5) = 2) = False from by decide,
      show ((4:Fin 5) = 3) = False from by decide]

theorem mul_mat_vec_matOf {f : Vec → Vec} (hf : IsLin f) (v : Vec)
    (hv : ValidVec v) : mul_mat_vec (matOf f) v = f v := by
  have h1 : ∀ (i : Fin 5) (j : Nat),
      (if (v i).testBit j then matOf f i j else vec0)
        = f (if (v i).testBit j then basis i j else vec0) := by
    intro i j
    cases h : (v i).testBit j <;> simp [matOf, hf.1, h]
  calc mul_mat_vec (matOf f) v
      = bigXor ((List.finRange 5).map fun i =>
          bigXor ((List.range 32).map fun j =>
            f (if (v i).testBit j then basis i j else vec0))) := by
        simp only [mul_mat_vec, h1]
    _ = f (bigXor ((List.finRange 5).map fun i =>
          bigXor ((List.range 32).map fun j =>
            if (v i).testBit j then basis i j else vec0))) := by
        rw [lin_bigXor hf, List.map_map]
        refine congrArg bigXor (List.map_congr_left fun i _ => ?_)
        show bigXor ((List.range 32).map fun j =>
            f (if (v i).testBit j then basis i j else vec0))
          = f (bigXor ((List.range 32).map fun j =>
            if (v i).testBit j then basis i j else vec0))
        rw [lin_bigXor hf, List.map_map]
        rfl
    _ = f (bigXor ((List.finRange 5).map fun i => wVec i (v i % 2 ^ 32))) := by
        simp only [bit_decomp]
    _ = f (bigXor ((List.finRange 5).map fun i => wVec i (v i))) := by
        refine congrArg f (congrArg bigXor (List.map_congr_left fun i _ => ?_))
        rw [Nat.mod_eq_of_lt (show v i < 2 ^ 32 from hv i)]
    _ = f v := by rw [word_decomp]

/-! ### The step map is linear and preserves 32-bit validity -/

theorem XORWOW_JUMP_MATRICES_eq : XORWOW_JUMP_MATRICES = 32 := rfl

theorem XORWOW_JUMP_LOG2_eq : XORWOW_JUMP_LOG2 = 2 := rfl

theorem xorwow_next_x_apply0 (x : Vec) : xorwow_next_x x 0 = x 1 := rfl

theorem xorwow_next_x_apply1 (x : Vec) : xorwow_next_x x 1 = x 2 := rfl

theorem xorwow_next_x_apply2 (x : Vec) : xorwow_next_x x 2 = x 3 := rfl

theorem xorwow_next_x_apply3 (x : Vec) : xorwow_next_x x 3 = x 4 := rfl

theorem xorwow_next_x_apply4 (x : Vec) :
    xorwow_next_x x 4 = (x 4 ^^^ ((x 4 <<< 4) % W))
      ^^^ ((x 0 ^^^ (x 0 >>> 2))
            ^^^ (((x 0 ^^^ (x 0 >>> 2)) <<< 1) % W)) := rfl

theorem mix_lin (a b c d : Nat) :
    ((a ^^^ b) ^^^ (((a ^^^ b) <<< 4) % 2 ^ 32))
        ^^^ ((c ^^^ d) ^^^ (((c ^^^ d) <<< 1) % 2 ^ 32))
      = ((a ^^^ ((a <<< 4) % 2 ^ 32)) ^^^ (c ^^^ ((c <<< 1) % 2 ^ 32)))
        ^^^ ((b ^^^ ((b <<< 4) % 2 ^ 32)) ^^^ (d ^^^ ((d <<< 1) % 2 ^ 32))) := by
  rw [shiftLeft_xor a b 4, mod_two_pow_xor, shiftLeft_xor c d 1,
    mod_two_pow_xor, nat_xor4 a b, nat_xor4 c d]
  exact nat_xor4 _ _ _ _

theorem isLin_xorwow_next_x : IsLin xorwow_next_x := by
  constructor
  · funext i
    fin_cases i <;> rfl
  · intro u v
    funext i
    fin_cases i
    · rfl
    · rfl
    · rfl
    · rfl
    · show xorwow_next_x (vecXor u v) 4
        = xorwow_next_x u 4 ^^^ xorwow_next_x v 4
      rw [xorwow_next_x_apply4, xorwow_next_x_apply4, xorwow_next_x_apply4]
      simp only [vecXor_apply]
      rw [shiftRight_xor (u 0) (v 0) 2, nat_xor4 (u 0) (v 0)]
      simp only [W]
      exact mix_lin (u 4) (v 4) (u 0 ^^^ (u 0 >>> 2)) (v 0 ^^^ (v 0 >>> 2))

theorem shiftRight_lt {a n k : Nat} (h : a < 2 ^ n) : a >>> k < 2 ^ n :=
  Nat.lt_of_le_of_lt
    (by rw [Nat.shiftRight_eq_div_pow]; exact Nat.div_le_self _ _) h

theorem validVec_xorwow_next_x {x : Vec} (hx : ValidVec x) :
    ValidVec (xorwow_next_x x) := by
  have hW : 0 < W := Nat.two_pow_pos 32
  intro i
  fin_cases i
  · exact hx 1
  · exact hx 2
  · exact hx 3
  · exact hx 4
  · show xorwow_next_x x 4 < W
    rw [xorwow_next_x_apply4]
    have h1 : x 4 ^^^ ((x 4 <<< 4) % W) < 2 ^ 32 :=
      Nat.xor_lt_two_pow (hx 4) (Nat.mod_lt _ hW)
    have ht : x 0 ^^^ (x 0 >>> 2) < 2 ^ 32 :=
      Nat.xor_lt_two_pow (hx 0) (shiftRight_lt (hx 0))
    have h2 : (x 0 ^^^ (x 0 >>> 2))
        ^^^ (((x 0 ^^^ (x 0 >>> 2)) <<< 1) % W) < 2 ^ 32 :=
      Nat.xor_lt_two_pow ht (Nat.mod_lt _ hW)
    exact Nat.xor_lt_two_pow h1 h2

theorem isLin_iterate {f : Vec → Vec} (hf : IsLin f) (n : Nat) :
    IsLin (f^[n]) := by
  induction n with
  | zero => exact ⟨rfl, fun u v => rfl⟩
  | succ n ih =>
    refine ⟨?_, fun u v => ?_⟩
    · rw [Function.iterate_succ_apply, hf.1, ih.1]
    · rw [Function.iterate_succ_apply, Function.iterate_succ_apply,
        Function.iterate_succ_apply, hf.2, ih.2]

theorem validVec_iterate {x : Vec} (hx : ValidVec x) (n : Nat) :
    ValidVec (xorwow_next_x^[n] x) := by
  induction n with
  | zero => exact hx
  | succ n ih =>
    rw [Function.iterate_succ_apply']
    exact validVec_xorwow_next_x ih

/-! ### Matrices representing powers of the step map -/

theorem represents_matOf (p : Nat) :
    Represents (matOf (xorwow_next_x^[p])) p := fun x hx =>
  mul_mat_vec_matOf (isLin_iterate isLin_xorwow_next_x p) x hx

theorem represents_matMul_self {a : Mat} {p : Nat} (ha : Represents a p) :
    Represents (mul_mat_mat a a) (2 * p) := by
  intro x hx
  rw [mul_mat_vec_matMul, ha x hx, ha _ (validVec_iterate hx p), two_mul,
    Function.iterate_add_apply]

theorem applyN_add (m : Mat) (p q : Nat) (x : Vec) :
    applyN m (p + q) x = applyN m p (applyN m q x) := by
  induction q generalizing x with
  | zero => rfl
  | succ q ih =>
    show applyN m ((p + q) + 1) x = applyN m p (applyN m (q + 1) x)
    rw [show applyN m ((p + q) + 1) x
        = applyN m (p + q) (mul_mat_vec m x) from rfl, ih]
    rfl

theorem applyN_represents {m : Mat} {p : Nat} (hm : Represents m p) (c : Nat)
    {x : Vec} (hx : ValidVec x) :
    applyN m c x = xorwow_next_x^[c * p] x := by
  induction c generalizing x with
  | zero =>
    rw [Nat.zero_mul]
    rfl
  | succ c ih =>
    show applyN m c (mul_mat_vec m x) = _
    rw [hm x hx, ih (validVec_iterate hx p), ← Function.iterate_add_apply]
    congr 1
    ring

theorem applyN_matMul_self (a : Mat) (k : Nat) (x : Vec) :
    applyN (mul_mat_mat a a) k x = applyN a (2 * k) x := by
  induction k generalizing x with
  | zero => rfl
  | succ k ih =>
    show applyN (mul_mat_mat a a) k (mul_mat_vec (mul_mat_mat a a) x)
      = applyN a ((2 * k + 1) + 1) x
    rw [ih, mul_mat_vec_matMul]
    rfl

theorem mat_squaring_loop_eq_applyN (v : Nat) : ∀ (a : Mat) (x : Vec),
    mat_squaring_loop a v x = applyN a (2 * v) x := by
  induction v using Nat.strong_induction_on with
  | _ v ih =>
    intro a x
    rw [mat_squaring_loop]
    show (if _h : 0 < v / 2 then
        mat_squaring_loop (mul_mat_mat a a) (v / 2)
          (if v % 2 = 1 then mul_mat_vec (mul_mat_mat a a) x else x)
      else (if v % 2 = 1 then mul_mat_vec (mul_mat_mat a a) x else x))
      = applyN a (2 * v) x
    by_cases h : 0 < v / 2
    · rw [dif_pos h, ih (v / 2) (by omega), applyN_matMul_self]
      by_cases hp : v % 2 = 1
      · rw [if_pos hp,
          show mul_mat_vec (mul_mat_mat a a) x = applyN a 2 x from by
            rw [mul_mat_vec_matMul]; rfl,
          ← applyN_add,
          show 2 * (2 * (v / 2)) + 2 = 2 * v from by omega]
      · rw [if_neg hp, show 2 * (2 * (v / 2)) = 2 * v from by omega]
    · rw [dif_neg h]
      have hv : v = 0 ∨ v = 1 := by omega
      rcases hv with hv | hv
      · subst hv
        rfl
      · subst hv
        rw [if_pos rfl, mul_mat_vec_matMul]
        rfl

/-! ### Semantics of the digit loop and of jump -/

/-- Bits of `v` consumed by the last `k` positions of the digit loop:
`XORWOW_JUMP_LOG2 = 2` bits per position except a single bit at the final
table position. -/
def jump_loop_shift (k : Nat) : Nat := if k = 0 then 0 else 2 * k - 1

theorem jump_loop_shift_zero : jump_loop_shift 0 = 0 := rfl

theorem jump_loop_shift_succ (k : Nat) (hk : 0 < k) :
    jump_loop_shift (k + 1) = 2 + jump_loop_shift k := by
  unfold jump_loop_shift
  rw [if_neg (by omega : ¬ k + 1 = 0), if_neg (by omega : ¬ k = 0)]
  omega

theorem jump_loop_sem (table : Nat → Mat) (s : Nat)
    (htab : ∀ mi, mi < XORWOW_JUMP_MATRICES →
      Represents (table mi) (s * 4 ^ mi)) :
    ∀ (k mi : Nat), mi + k = XORWOW_JUMP_MATRICES →
      ∀ (v : Nat) (x : Vec), ValidVec x →
      jump_loop table (List.range' mi k) v x
        = (v >>> jump_loop_shift k,
           xorwow_next_x^[s * 4 ^ mi * (v % 2 ^ jump_loop_shift k)] x) := by
  intro k
  induction k with
  | zero =>
    intro mi _ v x _
    show (v, x) = _
    simp [jump_loop_shift_zero, Nat.mod_one]
  | succ k ih =>
    intro mi hmi v x hx
    rw [List.range'_succ]
    show (if v = 0 then (v, x) else
        jump_loop table (List.range' (mi + 1) k)
          (v >>> (if mi < XORWOW_JUMP_MATRICES - 1 then XORWOW_JUMP_LOG2 else 1))
          (applyN (table mi)
            (v % 2 ^ (if mi < XORWOW_JUMP_MATRICES - 1 then XORWOW_JUMP_LOG2 else 1))
            x))
      = (v >>> jump_loop_shift (k + 1),
         xorwow_next_x^[s * 4 ^ mi * (v % 2 ^ jump_loop_shift (k + 1))] x)
    have hrep := htab mi (by omega)
    by_cases hv : v = 0
    · subst hv
      rw [if_pos rfl]
      simp
    · rw [if_neg hv]
      rcases Nat.eq_zero_or_pos k with hk | hk
      · subst hk
        rw [if_neg (by omega), applyN_represents hrep _ hx,
          ih (mi + 1) (by omega) _ _
            (validVec_iterate hx ((v % 2 ^ 1) * (s * 4 ^ mi)))]
        rw [Prod.mk.injEq]
        constructor
        · rw [jump_loop_shift_zero, Nat.shiftRight_zero]
          rfl
        · rw [jump_loop_shift_zero, pow_zero, Nat.mod_one, Nat.mul_zero,
            Function.iterate_zero_apply,
            show jump_loop_shift (0 + 1) = 1 from rfl, pow_one,
            Nat.mul_comm (v % 2) (s * 4 ^ mi)]
      · rw [if_pos (by omega), XORWOW_JUMP_LOG2_eq,
          applyN_represents hrep _ hx,
          ih (mi + 1) (by omega) _ _
            (validVec_iterate hx ((v % 2 ^ 2) * (s * 4 ^ mi)))]
        rw [Prod.mk.injEq]
        constructor
        · rw [← Nat.shiftRight_add, jump_loop_shift_succ k hk]
        · rw [← Function.iterate_add_apply]
          congr 1
          rw [jump_loop_shift_succ k hk, Nat.shiftRight_eq_div_pow,
            pow_add 2 2 (jump_loop_shift k), Nat.mod_mul]
          ring

theorem jump_loop_shift_32 : jump_loop_shift XORWOW_JUMP_MATRICES = 63 := rfl

theorem jump_sem (table : Nat → Mat) (s : Nat)
    (htab : ∀ mi, mi < XORWOW_JUMP_MATRICES →
      Represents (table mi) (s * 4 ^ mi))
    (v : Nat) (x : Vec) (hx : ValidVec x) :
    jump v table x = xorwow_next_x^[s * v] x := by
  have hl := jump_loop_sem table s htab XORWOW_JUMP_MATRICES 0
    (by omega) v x hx
  rw [jump_loop_shift_32] at hl
  show (if 0 < (jump_loop table (List.range XORWOW_JUMP_MATRICES) v x).1 then
      mat_squaring_loop (table (XORWOW_JUMP_MATRICES - 1))
        (jump_loop table (List.range XORWOW_JUMP_MATRICES) v x).1
        (jump_loop table (List.range XORWOW_JUMP_MATRICES) v x).2
    else (jump_loop table (List.range XORWOW_JUMP_MATRICES) v x).2)
    = xorwow_next_x^[s * v] x
  rw [List.range_eq_range', hl]
  dsimp only
  have hdm := Nat.div_add_mod v (2 ^ 63)
  by_cases h : 0 < v >>> 63
  · rw [if_pos h, mat_squaring_loop_eq_applyN,
      applyN_represents
        (htab (XORWOW_JUMP_MATRICES - 1) (by rw [XORWOW_JUMP_MATRICES_eq]; omega))
        _ (validVec_iterate hx _),
      ← Function.iterate_add_apply]
    congr 1
    rw [XORWOW_JUMP_MATRICES_eq, Nat.shiftRight_eq_div_pow]
    conv_rhs => rw [← hdm]
    norm_num
    ring
  · rw [if_neg h]
    have h0 : v >>> 63 = 0 := by omega
    rw [Nat.shiftRight_eq_div_pow] at h0
    rw [h0, Nat.mul_zero, Nat.zero_add] at hdm
    rw [pow_zero, Nat.mul_one, hdm]

theorem represents_h_jump (mi : Nat) :
    Represents (h_xorwow_jump_matrices mi) (1 * 4 ^ mi) := by
  rw [Nat.one_mul]
  exact represents_matOf (4 ^ mi)

theorem represents_h_seq_jump (mi : Nat) :
    Represents (h_xorwow_sequence_jump_matrices mi) (2 ^ 67 * 4 ^ mi) :=
  represents_matOf (2 ^ 67 * 4 ^ mi)

theorem jump_correct (v : Nat) (x : Vec) (hx : ValidVec x) :
    jump v h_xorwow_jump_matrices x = xorwow_next_x^[v] x := by
  have h := jump_sem h_xorwow_jump_matrices 1
    (fun mi _ => represents_h_jump mi) v x hx
  rwa [Nat.one_mul] at h

theorem jump_seq_correct (v : Nat) (x : Vec) (hx : ValidVec x) :
    jump v h_xorwow_sequence_jump_matrices x
      = xorwow_next_x^[2 ^ 67 * v] x :=
  jump_sem h_xorwow_sequence_jump_matrices (2 ^ 67)
    (fun mi _ => represents_h_seq_jump mi) v x hx

theorem jump_loop_zero_v (table : Nat → Mat) (x : Vec) (l : List Nat) :
    jump_loop table l 0 x = (0, x) := by
  cases l with
  | nil => rfl
  | cons a l =>
    show (if (0:Nat) = 0 then ((0:Nat), x) else _) = _
    rw [if_pos rfl]

theorem jump_zero (table : Nat → Mat) (x : Vec) : jump 0 table x = x := by
  show (if 0 < (jump_loop table (List.range XORWOW_JUMP_MATRICES) 0 x).1 then
      mat_squaring_loop (table (XORWOW_JUMP_MATRICES - 1))
        (jump_loop table (List.range XORWOW_JUMP_MATRICES) 0 x).1
        (jump_loop table (List.range XORWOW_JUMP_MATRICES) 0 x).2
    else (jump_loop table (List.range XORWOW_JUMP_MATRICES) 0 x).2) = x
  rw [jump_loop_zero_v]
  simp

/-! ### Engine-level lemmas -/

theorem xorwow_step_x (s : xorwow_state) :
    (xorwow_step s).x = xorwow_next_x s.x := rfl

theorem xorwow_step_d (s : xorwow_state) :
    (xorwow_step s).d = (s.d + 362437) % W := rfl

theorem xorwow_step_iterate_x (n : Nat) (s : xorwow_state) :
    (xorwow_step^[n] s).x = xorwow_next_x^[n] s.x := by
  induction n with
  | zero => rfl
  | succ n ih =>
    rw [Function.iterate_succ_apply', Function.iterate_succ_apply',
      xorwow_step_x, ih]

theorem xorwow_step_iterate_d (n : Nat) (s : xorwow_state) (hd : s.d < W) :
    (xorwow_step^[n] s).d = (s.d + n * 362437) % W := by
  induction n with
  | zero =>
    show s.d = (s.d + 0 * 362437) % W
    rw [Nat.zero_mul, Nat.add_zero, Nat.mod_eq_of_lt hd]
  | succ n ih =>
    rw [Function.iterate_succ_apply', xorwow_step_d, ih, Nat.mod_add_mod]
    congr 1
    ring

theorem xorwow_step_iterate_frame (n : Nat) (s : xorwow_state) :
    (xorwow_step^[n] s).boxmuller_float_state = s.boxmuller_float_state ∧
    (xorwow_step^[n] s).boxmuller_double_state = s.boxmuller_double_state ∧
    (xorwow_step^[n] s).boxmuller_float = s.boxmuller_float ∧
    (xorwow_step^[n] s).boxmuller_double = s.boxmuller_double := by
  induction n with
  | zero => exact ⟨rfl, rfl, rfl, rfl⟩
  | succ n ih =>
    rw [Function.iterate_succ_apply']
    exact ih

theorem discard_eq_iterate (n : Nat) (s : xorwow_state) (hx : ValidVec s.x)
    (hd : s.d < W) : discard n s = xorwow_step^[n] s := by
  refine xorwow_state.ext ?_ ?_ ?_ ?_ ?_ ?_
  · rw [xorwow_step_iterate_x]
    exact jump_correct n s.x hx
  · rw [xorwow_step_iterate_d n s hd]
    show (s.d + (n % W) * 362437 % W) % W = (s.d + n * 362437) % W
    rw [Nat.mod_mul_mod, Nat.add_mod_mod]
  · exact (xorwow_step_iterate_frame n s).1.symm
  · exact (xorwow_step_iterate_frame n s).2.1.symm
  · exact (xorwow_step_iterate_frame n s).2.2.1.symm
  · exact (xorwow_step_iterate_frame n s).2.2.2.symm

theorem mixed_d_lt (seed : Nat) : (xorwow_mixed_state seed).d < W :=
  Nat.mod_lt _ (Nat.two_pow_pos 32)

theorem discard_zero (s : xorwow_state) (hd : s.d < W) : discard 0 s = s := by
  refine xorwow_state.ext ?_ ?_ rfl rfl rfl rfl
  · exact jump_zero h_xorwow_jump_matrices s.x
  · show (s.d + (0 % W) * 362437 % W) % W = s.d
    simp [Nat.mod_eq_of_lt hd]

theorem discard_subsequence_zero (s : xorwow_state) :
    discard_subsequence 0 s = s :=
  xorwow_state.ext (jump_zero h_xorwow_sequence_jump_matrices s.x)
    rfl rfl rfl rfl rfl

theorem init_zero_zero (seed : Nat) :
    xorwow_engine_init seed 0 0 = xorwow_mixed_state seed := by
  show ({ discard 0 (discard_subsequence 0 (xorwow_mixed_state seed)) with
      boxmuller_float_state := 0, boxmuller_double_state := 0 } : xorwow_state)
    = xorwow_mixed_state seed
  rw [discard_subsequence_zero, discard_zero _ (mixed_d_lt seed)]
  exact xorwow_state.ext rfl rfl rfl rfl rfl rfl

/-! ### Digit decomposition performed by the table loop -/

/-- The digit width the code uses at table position `mi` (line 239):
`XORWOW_JUMP_LOG2` everywhere except the last position, which uses `1`. -/
def jump_loop_width (mi : Nat) : Nat :=
  if mi < XORWOW_JUMP_MATRICES - 1 then XORWOW_JUMP_LOG2 else 1

/-- The per-position matrix applications the loop actually performs: at
position `mi`, `table mi` is applied `(v >>> (XORWOW_JUMP_LOG2 * mi)) %
2 ^ jump_loop_width mi` times. -/
def code_digits (table : Nat → Mat) (v : Nat) (x : Vec) : Vec :=
  (List.range XORWOW_JUMP_MATRICES).foldl
    (fun y mi => applyN (table mi)
      ((v >>> (XORWOW_JUMP_LOG2 * mi)) % 2 ^ jump_loop_width mi) y) x

/-- The digit application described by the claim: every digit has the fixed
width `XORWOW_JUMP_LOG2` and `table mi` is applied digit-many times. -/
def claim_uniform_digits (table : Nat → Mat) (v : Nat) (x : Vec) : Vec :=
  (List.range XORWOW_JUMP_MATRICES).foldl
    (fun y mi => applyN (table mi)
      ((v >>> (XORWOW_JUMP_LOG2 * mi)) % 2 ^ XORWOW_JUMP_LOG2) y) x

/-- A toy matrix for concrete counterexamples: it sends bit `j` of word `i`
to bit `j + 1` of word `i`, so one application doubles every word. -/
def shift_mat : Mat := fun i j => basis i (j + 1)

theorem foldl_self {α : Type} (l : List α) (x : Vec) :
    l.foldl (fun y _ => y) x = x := by
  induction l generalizing x with
  | nil => rfl
  | cons a l ih => exact ih x

theorem jump_loop_digits_aux (table : Nat → Mat) :
    ∀ (k mi : Nat), mi + k = XORWOW_JUMP_MATRICES →
      ∀ (v : Nat) (x : Vec),
      jump_loop table (List.range' mi k) v x
        = (v >>> jump_loop_shift k,
           (List.range' mi k).foldl
             (fun y m => applyN (table m)
               ((v >>> (XORWOW_JUMP_LOG2 * (m - mi)))
                 % 2 ^ jump_loop_width m) y) x) := by
  intro k
  induction k with
  | zero =>
    intro mi _ v x
    show (v, x) = _
    rw [jump_loop_shift_zero, Nat.shiftRight_zero]
    rfl
  | succ k ih =>
    intro mi hmi v x
    rw [List.range'_succ]
    show (if v = 0 then (v, x) else
        jump_loop table (List.range' (mi + 1) k)
          (v >>> (if mi < XORWOW_JUMP_MATRICES - 1 then XORWOW_JUMP_LOG2 else 1))
          (applyN (table mi)
            (v % 2 ^ (if mi < XORWOW_JUMP_MATRICES - 1 then XORWOW_JUMP_LOG2
              else 1))
            x))
      = _
    by_cases hv : v = 0
    · subst hv
      rw [if_pos rfl]
      rw [Prod.mk.injEq]
      constructor
      · rw [Nat.zero_shiftRight]
      · rw [List.foldl_cons]
        simp only [Nat.zero_shiftRight, Nat.zero_mod, applyN]
        rw [foldl_self]
    · rw [if_neg hv, List.foldl_cons, Nat.sub_self, Nat.mul_zero,
        Nat.shiftRight_zero]
      show jump_loop table (List.range' (mi + 1) k)
          (v >>> jump_loop_width mi)
          (applyN (table mi) (v % 2 ^ jump_loop_width mi) x) = _
      rw [ih (mi + 1) (by omega)]
      rw [Prod.mk.injEq]
      constructor
      · rcases Nat.eq_zero_or_pos k with hk | hk
        · subst hk
          rw [jump_loop_shift_zero, Nat.shiftRight_zero,
            show jump_loop_width mi = 1 from if_neg (by omega),
            show jump_loop_shift (0 + 1) = 1 from rfl]
        · rw [show jump_loop_width mi = XORWOW_JUMP_LOG2 from if_pos (by omega),
            XORWOW_JUMP_LOG2_eq, ← Nat.shiftRight_add,
            jump_loop_shift_succ k hk]
      · apply List.foldl_ext
        intro y m hm
        have hm2 : mi + 1 ≤ m := by
          rcases List.mem_range'.mp hm with ⟨i, _, rfl⟩
          omega
        rcases Nat.eq_zero_or_pos k with hk | hk
        · subst hk
          simp at hm
        · rw [show jump_loop_width mi = XORWOW_JUMP_LOG2 from if_pos (by omega),
            XORWOW_JUMP_LOG2_eq, ← Nat.shiftRight_add,
            show 2 + 2 * (m - (mi + 1)) = 2 * (m - mi) from by omega]

theorem jump_loop_eq_code_digits (table : Nat → Mat) (v : Nat) (x : Vec) :
    jump_loop table (List.range XORWOW_JUMP_MATRICES) v x
      = (v >>> 63, code_digits table v x) := by
  rw [List.range_eq_range',
    jump_loop_digits_aux table XORWOW_JUMP_MATRICES 0 (by omega) v x,
    jump_loop_shift_32, Prod.mk.injEq]
  refine ⟨rfl, ?_⟩
  rw [code_digits, List.range_eq_range']
  apply List.foldl_ext
  intro y m _
  rw [Nat.sub_zero]

/-! ### The claims -/

/-- C1: for every skip distance `n` and every (valid) engine state `S`,
`discard(n)` followed by one `next` call yields exactly the same resulting
state and the same output word as calling `next` on `S` exactly `n + 1`
times. -/
theorem skipahead_then_next (n : Nat) (s : xorwow_state)
    (hx : ValidVec s.x) (hd : s.d < W) :
    xorwow_next (discard n s) = xorwow_next (xorwow_step^[n] s) := by
  rw [discard_eq_iterate n s hx hd]

theorem skipahead_then_next_witness :
    ValidVec (xorwow_state.mk ![1, 2, 3, 4, 5] 6 0 0 0 0).x ∧
    (xorwow_state.mk ![1, 2, 3, 4, 5] 6 0 0 0 0).d < W ∧
    xorwow_next (discard 3 (xorwow_state.mk ![1, 2, 3, 4, 5] 6 0 0 0 0))
      = xorwow_next (xorwow_step^[3]
          (xorwow_state.mk ![1, 2, 3, 4, 5] 6 0 0 0 0)) :=
  ⟨by decide, by decide,
    skipahead_then_next 3 (xorwow_state.mk ![1, 2, 3, 4, 5] 6 0 0 0 0)
      (by decide) (by decide)⟩

/-- C2: a single `next()` call computes `t = x[0] ^ (x[0] >> 2)`, shifts the
five words down, sets the new `x[4]` to `(x4 ^ (x4 << 4)) ^ (t ^ (t << 1))`,
increments `d` by `362437` mod `2^32`, and returns `d + x[4]` mod `2^32`
using the updated `d` and `x[4]`. -/
theorem next_advance_formula (s : xorwow_state) :
    xorwow_next s =
      ({ s with
          x := ![s.x 1, s.x 2, s.x 3, s.x 4,
            (s.x 4 ^^^ ((s.x 4 <<< 4) % 2 ^ 32))
              ^^^ ((s.x 0 ^^^ (s.x 0 >>> 2))
                ^^^ (((s.x 0 ^^^ (s.x 0 >>> 2)) <<< 1) % 2 ^ 32))],
          d := (s.d + 362437) % 2 ^ 32 },
        ((s.d + 362437) % 2 ^ 32
          + ((s.x 4 ^^^ ((s.x 4 <<< 4) % 2 ^ 32))
              ^^^ ((s.x 0 ^^^ (s.x 0 >>> 2))
                ^^^ (((s.x 0 ^^^ (s.x 0 >>> 2)) <<< 1) % 2 ^ 32))))
          % 2 ^ 32) := rfl

/-- C3: constructing with `(seed, sub, off)` equals constructing with
`(seed, 0, 0)` and then calling `discard_subsequence(sub)` followed by
`discard(off)`; with `sub = 0`, `off = 0` the two discards are the
identity on the constructed state. -/
theorem init_composition :
    (∀ seed subsequence offset : Nat,
      xorwow_engine_init seed subsequence offset
        = discard offset
            (discard_subsequence subsequence (xorwow_engine_init seed 0 0))) ∧
    (∀ seed : Nat,
      discard 0 (discard_subsequence 0 (xorwow_engine_init seed 0 0))
        = xorwow_engine_init seed 0 0) := by
  have h : ∀ seed subsequence offset : Nat,
      xorwow_engine_init seed subsequence offset
        = discard offset
            (discard_subsequence subsequence (xorwow_engine_init seed 0 0)) := by
    intro seed sub off
    rw [init_zero_zero]
    exact xorwow_state.ext rfl rfl rfl rfl rfl rfl
  exact ⟨h, fun seed => (h seed 0 0).symm⟩

/-- C4: after `discard(n)` the Weyl value is exactly
`(d + n * 362437) mod 2^32`; truncating `n` to 32 bits before the
multiplication (as the code does) agrees with `n * 362437 mod 2^32`. -/
theorem discard_weyl :
    (∀ (n : Nat) (s : xorwow_state),
      (discard n s).d = (s.d + n * 362437) % 2 ^ 32) ∧
    (∀ n : Nat, n % 2 ^ 32 * 362437 % 2 ^ 32 = n * 362437 % 2 ^ 32) := by
  constructor
  · intro n s
    show (s.d + n % 2 ^ 32 * 362437 % 2 ^ 32) % 2 ^ 32
      = (s.d + n * 362437) % 2 ^ 32
    rw [Nat.mod_mul_mod, Nat.add_mod_mod]
  · intro n
    exact Nat.mod_mul_mod

/-- C5: `discard_subsequence(n)` leaves `d` bit-for-bit unchanged; this is
consistent with the step semantics because `2^67 * n` steps change `d` by
`2^67 * n * 362437 ≡ 0 (mod 2^32)`. -/
theorem discard_subsequence_weyl :
    (∀ (n : Nat) (s : xorwow_state), (discard_subsequence n s).d = s.d) ∧
    (∀ n : Nat, 2 ^ 67 * n * 362437 % 2 ^ 32 = 0) := by
  refine ⟨fun n s => rfl, fun n => ?_⟩
  rw [show 2 ^ 67 * n * 362437 = 2 ^ 32 * (2 ^ 35 * n * 362437) from by ring]
  exact Nat.mul_mod_right _ _

/-- C6 (counterexample): the table loop does not give every digit position
the fixed width `XORWOW_JUMP_LOG2`; at distance `2^63` the digit the loop
uses at the last table position is `(v >> 62) mod 2`, not `(v >> 62) mod 4`,
so the loop's applications differ from the uniform-width description. -/
theorem jump_loop_uniform_width_counterexample :
    (jump_loop (fun _ => shift_mat) (List.range XORWOW_JUMP_MATRICES) (2 ^ 63)
        ![1, 0, 0, 0, 0]).2
      ≠ claim_uniform_digits (fun _ => shift_mat) (2 ^ 63) ![1, 0, 0, 0, 0] := by
  decide

/-- C6 (amended): the loop decomposes the distance into digits of width
`XORWOW_JUMP_LOG2` at every table position except the last, whose digit has
width 1, and applies `table[mi]` to the state vector digit-many times; the
residual distance `v >> 63` is left for the fallback. -/
theorem jump_loop_digit_decomposition (table : Nat → Mat) (v : Nat) (x : Vec) :
    jump_loop table (List.range XORWOW_JUMP_MATRICES) v x
      = (v >>> (XORWOW_JUMP_LOG2 * (XORWOW_JUMP_MATRICES - 1) + 1),
         code_digits table v x) :=
  jump_loop_eq_code_digits table v x

/-- C7: for residual distance `v > 0` and any last-table matrix, the linear
fallback (HCC branch: `2 * v` single applications) and the default
exponentiation-by-squaring fallback produce the same final state vector. -/
theorem fallback_strategies_agree (m : Mat) (v : Nat) (x : Vec)
    (_hv : 0 < v) :
    jump_linear_fallback m v x = mat_squaring_loop m v x := by
  rw [mat_squaring_loop_eq_applyN, jump_linear_fallback, Nat.shiftLeft_eq,
    pow_one, Nat.mul_comm]

theorem fallback_strategies_agree_witness :
    0 < 1 ∧ jump_linear_fallback shift_mat 1 ![1, 0, 0, 0, 0]
      = mat_squaring_loop shift_mat 1 ![1, 0, 0, 0, 0] :=
  ⟨Nat.one_pos,
    fallback_strategies_agree shift_mat 1 ![1, 0, 0, 0, 0] Nat.one_pos⟩

/-- C8: for seeds `0`, `1` and `0xFFFFFFFFFFFFFFFF` (subsequence and offset
`0`, so no jump is applied), the seeded `x` vector is not all-zero. -/
theorem seeding_nondegenerate :
    (xorwow_engine_init 0 0 0).x ≠ vec0 ∧
    (xorwow_engine_init 1 0 0).x ≠ vec0 ∧
    (xorwow_engine_init 0xFFFFFFFFFFFFFFFF 0 0).x ≠ vec0 := by
  decide

/-- C9: `discard` and `discard_subsequence` leave the four cached
Box-Muller fields bit-for-bit unchanged (the state has no other fields
besides `x` and `d`). -/
theorem skip_preserves_boxmuller (offset n : Nat) (s : xorwow_state) :
    ((discard offset s).boxmuller_float_state = s.boxmuller_float_state ∧
     (discard offset s).boxmuller_double_state = s.boxmuller_double_state ∧
     (discard offset s).boxmuller_float = s.boxmuller_float ∧
     (discard offset s).boxmuller_double = s.boxmuller_double) ∧
    ((discard_subsequence n s).boxmuller_float_state
        = s.boxmuller_float_state ∧
     (discard_subsequence n s).boxmuller_double_state
        = s.boxmuller_double_state ∧
     (discard_subsequence n s).boxmuller_float = s.boxmuller_float ∧
     (discard_subsequence n s).boxmuller_double = s.boxmuller_double) :=
  ⟨⟨rfl, rfl, rfl, rfl⟩, ⟨rfl, rfl, rfl, rfl⟩⟩

/-- C10: `next()` modifies only `x` and `d`; the four Box-Muller cache
fields survive one `next` call, and hence arbitrarily many. -/
theorem next_preserves_boxmuller (s : xorwow_state) (k : Nat) :
    ((xorwow_next s).1.boxmuller_float_state = s.boxmuller_float_state ∧
     (xorwow_next s).1.boxmuller_double_state = s.boxmuller_double_state ∧
     (xorwow_next s).1.boxmuller_float = s.boxmuller_float ∧
     (xorwow_next s).1.boxmuller_double = s.boxmuller_double) ∧
    ((xorwow_step^[k] s).boxmuller_float_state = s.boxmuller_float_state ∧
     (xorwow_step^[k] s).boxmuller_double_state = s.boxmuller_double_state ∧
     (xorwow_step^[k] s).boxmuller_float = s.boxmuller_float ∧
     (xorwow_step^[k] s).boxmuller_double = s.boxmuller_double) :=
  ⟨⟨rfl, rfl, rfl, rfl⟩, xorwow_step_iterate_frame k s⟩

end rocrand
